import Mathlib

/-!
Verification of the ADDER compressed-codec core: a shallow embedding of the
block/cube/frame event aggregation (blocks/block.rs), the residual predictor,
and the ADU serialization layer (adu/interblock.rs, adu/frame.rs), with
theorems checking the specified properties against the embedded code.

Machine integers are modelled as Nat/Int; `u8`/`u16`/`u32` bounds appear as
explicit hypotheses or `% 2^w` reductions where overflow matters.  Rust
panics are modelled as an explicit result constructor, and Rust `Result` as
an explicit error constructor.
-/

set_option maxRecDepth 40000

namespace Adder

/-- BLOCK_SIZE constant from blocks/mod.rs (value fixed by the spec, §3, and
by the doc tests in block.rs: a 16x16 tile). -/
def BLOCK_SIZE : Nat := 16

/-- BLOCK_SIZE_AREA = 256 entries per block. -/
def BLOCK_SIZE_AREA : Nat := 256

/-- EventCoordless from lib.rs: an event stripped of its coordinate. -/
structure EventCoordless where
  d : Nat
  delta_t : Nat
deriving DecidableEq, Repr

/-- Coord from lib.rs: pixel address with optional channel. -/
structure Coord where
  x : Nat
  y : Nat
  c : Option Nat
deriving DecidableEq, Repr

/-- Event from lib.rs. -/
structure Event where
  coord : Coord
  d : Nat
  delta_t : Nat
deriving DecidableEq, Repr

/-- BlockError from blocks/block.rs: the AlreadyExists error carrying the
in-block index. -/
inductive BlockError where
  | alreadyExists (idx : Nat)
deriving DecidableEq, Repr

/-- Result of an operation that can succeed, fail with a BlockError, or
panic (Rust panic / out-of-bounds index). -/
inductive BlockResult (α : Type) where
  | ok (a : α)
  | failed (e : BlockError)
  | panicked (msg : String)
deriving DecidableEq, Repr

/-- Block from blocks/block.rs: 256 optional events in row-major order plus a
fill count. -/
structure Block where
  events : List (Option EventCoordless)
  fill_count : Nat
deriving DecidableEq, Repr

/-- Block::new: an empty block. -/
def Block.new : Block :=
  { events := List.replicate BLOCK_SIZE_AREA none, fill_count := 0 }

/-- Block::set_event: error if the slot is occupied, otherwise store the
event (as an EventCoordless) and bump fill_count.  An out-of-range index is
a Rust panic. -/
def Block.setEvent (b : Block) (e : Event) (idx : Nat) : BlockResult Block :=
  match b.events.get? idx with
  | none => .panicked "index out of bounds"
  | some (some _) => .failed (.alreadyExists idx)
  | some none =>
      .ok { events := b.events.set idx (some ⟨e.d, e.delta_t⟩),
            fill_count := b.fill_count + 1 }

/-- Cube from blocks/block.rs: three per-channel block sequences plus the
per-position block index maps. -/
structure Cube where
  blocks_r : List Block
  blocks_g : List Block
  blocks_b : List Block
  cube_idx_y : Nat
  cube_idx_x : Nat
  block_idx_map_r : List Nat
  block_idx_map_g : List Nat
  block_idx_map_b : List Nat
deriving DecidableEq, Repr

/-- Cube::new: one empty block per channel, index maps all zero. -/
def Cube.new (y x _c : Nat) : Cube :=
  { blocks_r := [Block.new]
    blocks_g := [Block.new]
    blocks_b := [Block.new]
    cube_idx_y := y
    cube_idx_x := x
    block_idx_map_r := List.replicate BLOCK_SIZE_AREA 0
    block_idx_map_g := List.replicate BLOCK_SIZE_AREA 0
    block_idx_map_b := List.replicate BLOCK_SIZE_AREA 0 }

/-- set_event_for_channel from blocks/block.rs: append a fresh block when the
map entry points past the end, write the event into the mapped block, and on
success advance the map entry. -/
def setEventForChannel (blocks : List Block) (map : List Nat) (e : Event)
    (idx : Nat) : BlockResult (List Block × List Nat) :=
  match map.get? idx with
  | none => .panicked "index out of bounds"
  | some mi =>
      let blocks1 := if blocks.length ≤ mi then blocks ++ [Block.new] else blocks
      match blocks1.get? mi with
      | none => .panicked "index out of bounds"
      | some b =>
          match b.setEvent e idx with
          | .ok b1 => .ok (blocks1.set mi b1, map.set idx (mi + 1))
          | .failed er => .failed er
          | .panicked m => .panicked m

/-- Cube::set_event: route on the channel (None is treated as channel 0);
channels 3 and above hit the `panic("Invalid color")` arm. -/
def Cube.setEvent (cube : Cube) (e : Event) (block_idx : Nat) :
    BlockResult Cube :=
  match e.coord.c.getD 0 with
  | 0 =>
      match setEventForChannel cube.blocks_r cube.block_idx_map_r e block_idx with
      | .ok (bs, m) => .ok { cube with blocks_r := bs, block_idx_map_r := m }
      | .failed er => .failed er
      | .panicked msg => .panicked msg
  | 1 =>
      match setEventForChannel cube.blocks_g cube.block_idx_map_g e block_idx with
      | .ok (bs, m) => .ok { cube with blocks_g := bs, block_idx_map_g := m }
      | .failed er => .failed er
      | .panicked msg => .panicked msg
  | 2 =>
      match setEventForChannel cube.blocks_b cube.block_idx_map_b e block_idx with
      | .ok (bs, m) => .ok { cube with blocks_b := bs, block_idx_map_b := m }
      | .failed er => .failed er
      | .panicked msg => .panicked msg
  | _ => .panicked "Invalid color"

/-- Leading-zero count of a u32 value, as u32::leading_zeros in Rust
(32 for 0, 31 for 1, and so on). -/
def u32LeadingZeros (n : Nat) : Nat := 32 - Nat.size n

/-- EventResidual from blocks/mod.rs: signed D and delta_t residuals
(DResidual is i16, DeltaTResidual is i64; both modelled as Int with the u8
and u32 input bounds carried as hypotheses). -/
structure EventResidual where
  d : Int
  delta_t : Int
deriving DecidableEq, Repr

/-- predict_residual_from_prev from blocks/block.rs.  Note the first match
arm of the source is written `1_i16..=20_16`, where `20_16` is the literal
2016 (underscore digit separator), so the positive arm covers 1..=2016.  The
u32 left shift wraps modulo 2^32; the shift amounts are bounded by the
guards. -/
def predictResidualFromPrev (previous next : EventCoordless) (dtm : Nat) :
    EventResidual :=
  let d_resid : Int := (next.d : Int) - (previous.d : Int)
  let pred : Int :=
    if 1 ≤ d_resid ∧ d_resid ≤ 2016 then
      if d_resid.toNat ≤ u32LeadingZeros previous.delta_t / 2 then
        min (((previous.delta_t <<< d_resid.toNat) % 2 ^ 32 : Nat) : Int)
          (dtm : Int)
      else (previous.delta_t : Int)
    else if -20 ≤ d_resid ∧ d_resid ≤ -1 then
      if (-d_resid).toNat ≤ 32 - u32LeadingZeros previous.delta_t then
        max ((previous.delta_t >>> (-d_resid).toNat : Nat) : Int)
          (previous.delta_t : Int)
      else (previous.delta_t : Int)
    else (previous.delta_t : Int)
  { d := d_resid, delta_t := (next.delta_t : Int) - pred }

/-- FrameToBlockIndexMap from blocks/block.rs. -/
structure FrameIdx where
  cube_idx : Nat
  block_idx : Nat
deriving DecidableEq, Repr

/-- Frame from blocks/block.rs.  The index_hashmap cache is modelled as an
association list. -/
structure Frame where
  cubes : List Cube
  cube_width : Nat
  cube_height : Nat
  color : Bool
  index_hashmap : List (Coord × FrameIdx)
deriving DecidableEq, Repr

/-- Association-list lookup for the coordinate cache. -/
def lookupIdx (hm : List (Coord × FrameIdx)) (c : Coord) : Option FrameIdx :=
  match hm with
  | [] => none
  | (k, v) :: rest => if k = c then some v else lookupIdx rest c

/-- Frame::new.  The source computes the cube grid with an f64 division by
`(BLOCK_SIZE as f64).ceil() = 16.0` and truncates; for all u16-range widths
this equals Nat division by 16 exactly (dividing by a power of two is exact
in f64). -/
def Frame.new (width height : Nat) (color : Bool) : Frame :=
  let cube_width := width / BLOCK_SIZE
  let cube_height := height / BLOCK_SIZE
  { cubes := ((List.range cube_height).map (fun y =>
      (List.range cube_width).map (fun x => Cube.new y x 0))).flatten
    cube_width := cube_width
    cube_height := cube_height
    color := color
    index_hashmap := [] }

/-- Frame::event_coord_to_block_idx: cube index and in-cube block position of
an event. -/
def Frame.eventCoordToBlockIdx (f : Frame) (e : Event) : FrameIdx :=
  { cube_idx := (e.coord.y / BLOCK_SIZE) * f.cube_width + e.coord.x / BLOCK_SIZE
    block_idx := (e.coord.y % BLOCK_SIZE) * BLOCK_SIZE + e.coord.x % BLOCK_SIZE }

/-- Frame::add_event.  Mirrors the source: cache the index mapping for the
coordinate if absent, then route to the cube.  The frame state is returned
alongside the result (the Rust method mutates self). -/
def Frame.addEvent (f : Frame) (e : Event) : BlockResult Nat × Frame :=
  let hm := match lookupIdx f.index_hashmap e.coord with
            | some _ => f.index_hashmap
            | none => (e.coord, f.eventCoordToBlockIdx e) :: f.index_hashmap
  let im := match lookupIdx hm e.coord with
            | some v => v
            | none => f.eventCoordToBlockIdx e
  match f.cubes.get? im.cube_idx with
  | none => (.panicked "index out of bounds", { f with index_hashmap := hm })
  | some cube =>
      match cube.setEvent e im.block_idx with
      | .ok c1 => (.ok im.cube_idx,
          { f with cubes := f.cubes.set im.cube_idx c1, index_hashmap := hm })
      | .failed er => (.failed er, { f with index_hashmap := hm })
      | .panicked msg => (.panicked msg, { f with index_hashmap := hm })

/-- Accessor: the slot at position pos of B-channel block blocknum of a given
cube, if all indices are in range. -/
def Frame.bSlot (f : Frame) (cube_idx blocknum pos : Nat) :
    Option (Option EventCoordless) :=
  match f.cubes.get? cube_idx with
  | none => none
  | some cube =>
      match cube.blocks_b.get? blocknum with
      | none => none
      | some b => b.events.get? pos

/-- The index mapping add_event uses for an event: the cached entry when the
coordinate is present in the hashmap, else the freshly computed one (which is
also what gets cached). -/
def Frame.resolveIdx (f : Frame) (e : Event) : FrameIdx :=
  match lookupIdx f.index_hashmap e.coord with
  | some v => v
  | none => f.eventCoordToBlockIdx e

/-- Channel selector: the block list of a cube for channel 0, 1, 2. -/
def Cube.channelBlocks (cube : Cube) (c : Nat) : List Block :=
  match c with
  | 0 => cube.blocks_r
  | 1 => cube.blocks_g
  | 2 => cube.blocks_b
  | _ => []

/-- Channel selector: the block index map of a cube for channel 0, 1, 2. -/
def Cube.channelMap (cube : Cube) (c : Nat) : List Nat :=
  match c with
  | 0 => cube.block_idx_map_r
  | 1 => cube.block_idx_map_g
  | 2 => cube.block_idx_map_b
  | _ => []

/-- Number of occupied (Some) slots of a block event array. -/
def countSome : List (Option EventCoordless) → Nat
  | [] => 0
  | none :: t => countSome t
  | some _ :: t => countSome t + 1

/-- Wellformedness of a block: 256 slots, and fill_count counts exactly the
occupied slots. -/
def Block.wf (b : Block) : Prop :=
  b.events.length = BLOCK_SIZE_AREA ∧ b.fill_count = countSome b.events

/-- Wellformedness of a cube: every block of every channel is wellformed. -/
def Cube.wf (cube : Cube) : Prop :=
  (∀ b ∈ cube.blocks_r, b.wf) ∧ (∀ b ∈ cube.blocks_g, b.wf) ∧
    (∀ b ∈ cube.blocks_b, b.wf)

/-- Wellformedness of a frame: every cube is wellformed. -/
def Frame.wfBlocks (f : Frame) : Prop :=
  ∀ cube ∈ f.cubes, cube.wf

/-- Frames reachable from Frame::new by sequences of successful add_event
calls. -/
inductive Reachable : Frame → Prop where
  | base (w h : Nat) (color : Bool) : Reachable (Frame.new w h color)
  | step (f : Frame) (e : Event) (idx : Nat) (f1 : Frame) :
      Reachable f → f.addEvent e = (.ok idx, f1) → Reachable f1

/-- The event of the C1 scenario (d and delta_t from the add_event doc test). -/
def c1Event : Event :=
  { coord := { x := 27, y := 13, c := some 2 }, d := 7, delta_t := 100 }

/-- Frame with an occupied slot at block position 17 of the single cube's R
channel (used to witness C8; such a state cannot be produced by add_event
itself, which always advances block_idx_map past filled slots, so it is built
directly). -/
def c8Block : Block :=
  { events := (List.replicate 256 none).set 17 (some ⟨5, 10⟩), fill_count := 1 }

/-- The witness cube for C8. -/
def c8Cube : Cube := { Cube.new 0 0 0 with blocks_r := [c8Block] }

/-- The witness frame for C8. -/
def c8Frame : Frame := { Frame.new 16 16 true with cubes := [c8Cube] }

/-- The witness event for C8: coordinate (1, 1), channel 0, landing on block
position 17. -/
def c8Event : Event :=
  { coord := { x := 1, y := 1, c := some 0 }, d := 6, delta_t := 20 }

/-- The witness event for C10: channel index 3. -/
def c10Event : Event :=
  { coord := { x := 1, y := 1, c := some 3 }, d := 5, delta_t := 10 }

/-- The named arithmetic-coding contexts (spec §4.2): D values, delta_t
residuals, generic bytes, EOF. -/
inductive Ctx where
  | u8General
  | dCtx
  | dtCtx
  | eofCtx
deriving DecidableEq, Repr

/-- One symbol on the abstract arithmetic-coded stream: the context it is
encoded under, and the symbol itself, where `none` is the end-of-stream
marker.  Modelled from the spec (§4.1): the coder is precision-correct, so
encode appends one tagged symbol and decode under the same context reads it
back; decoding under a different context is a model desync (§4.8). -/
abbrev Sym := Ctx × Option Int

/-- Modelled from the spec: the D_ENCODE_NO_EVENT reserved sentinel from
blocks/mod.rs (not under src/); any value outside the range of real D
residuals serves, and the i16 maximum is used here. -/
def D_ENCODE_NO_EVENT : Int := 32767

/-- Modelled from the spec (§4.4): dt_resid_offset_i16 from the codec_old
compression module (not under src/): offset(r, dtm) = r + dtm. -/
def dt_resid_offset (r dtm : Int) : Int := r + dtm

/-- Modelled from the spec (§4.4): the inverse offset, s - dtm. -/
def dt_resid_offset_inverse (s dtm : Int) : Int := s - dtm

/-- Modelled from the spec (§4.7): compress_d_residuals from intrablock.rs
(not under src/) encodes each of the entries directly under d_context. -/
def compress_d_residuals (ds : List Int) : List Sym :=
  ds.map (fun d => (Ctx.dCtx, some d))

/-- Modelled from the spec (§4.7): decompress_d_residuals from intrablock.rs
(not under src/) reads one symbol per position under d_context. -/
def decompress_d_residuals : Nat → List Sym → Option (List Int × List Sym)
  | 0, s => some ([], s)
  | n + 1, (Ctx.dCtx, some v) :: rest =>
      match decompress_d_residuals n rest with
      | some (ds, s1) => some (v :: ds, s1)
      | none => none
  | _ + 1, _ => none

/-- compress_dt_residuals from adu/interblock.rs: for each (dt, d) pair of
the zipped residual arrays, in index order, encode the offset dt residual
under dt_context only when d is not the no-event sentinel. -/
def compress_dt_residuals : List Int → List Int → Int → List Sym
  | t :: ts, d :: ds, dtm =>
      if d ≠ D_ENCODE_NO_EVENT then
        (Ctx.dtCtx, some (dt_resid_offset t dtm)) ::
          compress_dt_residuals ts ds dtm
      else compress_dt_residuals ts ds dtm
  | _, _, _ => []

/-- decompress_dt_residuals from adu/interblock.rs: iterate over the initial
dt array zipped with the d residuals; when d is not the sentinel read the
next dt_context symbol and store its inverse offset, otherwise keep the
initial value. -/
def decompress_dt_residuals : List Int → List Int → Int → List Sym →
    Option (List Int × List Sym)
  | t0 :: ts, d :: ds, dtm, s =>
      if d ≠ D_ENCODE_NO_EVENT then
        match s with
        | (Ctx.dtCtx, some v) :: s1 =>
            match decompress_dt_residuals ts ds dtm s1 with
            | some (out, s2) => some (dt_resid_offset_inverse v dtm :: out, s2)
            | none => none
        | _ => none
      else
        match decompress_dt_residuals ts ds dtm s with
        | some (out, s2) => some (t0 :: out, s2)
        | none => none
  | _, _, _, s => some ([], s)

/-- The expected result of decompressing dt residuals that were compressed
from ts against the d residual array ds, starting from the initial array
init: the initial value where d is the sentinel, the original t elsewhere. -/
def mergeResiduals : List Int → List Int → List Int → List Int
  | i :: is0, t :: ts, d :: ds =>
      (if d = D_ENCODE_NO_EVENT then i else t) :: mergeResiduals is0 ts ds
  | _, _, _ => []

/-- AduInterBlock from adu/interblock.rs. -/
structure AduInterBlock where
  shift_loss_param : Nat
  d_residuals : List Int
  t_residuals : List Int
deriving DecidableEq, Repr

/-- AduInterBlock::compress from adu/interblock.rs: shift_loss_param under
the general byte context, then the d residuals, then the elided dt
residuals. -/
def AduInterBlock.compress (b : AduInterBlock) (dtm : Int) : List Sym :=
  (Ctx.u8General, some (b.shift_loss_param : Int)) ::
    (compress_d_residuals b.d_residuals ++
      compress_dt_residuals b.t_residuals b.d_residuals dtm)

/-- AduInterBlock::decompress from adu/interblock.rs: starts from an empty
block (d residuals all sentinel, t residuals all zero), reads shift under
the byte context (cast to u8), all 256 d residuals, then the elided dt
residuals against the d array just read. -/
def AduInterBlock.decompress (dtm : Int) (s : List Sym) :
    Option (AduInterBlock × List Sym) :=
  match s with
  | (Ctx.u8General, some v) :: s1 =>
      match decompress_d_residuals BLOCK_SIZE_AREA s1 with
      | some (ds, s2) =>
          match decompress_dt_residuals (List.replicate BLOCK_SIZE_AREA 0) ds
              dtm s2 with
          | some (ts, s3) =>
              some ({ shift_loss_param := v.toNat % 256, d_residuals := ds,
                      t_residuals := ts }, s3)
          | none => none
      | none => none
  | _ => none

/-- Wellformedness of an inter block: u8 shift, 256-entry arrays, and a zero
t residual wherever the d residual is the no-event sentinel (the on-wire
format cannot carry a dt residual there). -/
abbrev AduInterBlock.wf (b : AduInterBlock) : Prop :=
  b.shift_loss_param < 256 ∧ b.d_residuals.length = BLOCK_SIZE_AREA ∧
    b.t_residuals.length = BLOCK_SIZE_AREA ∧
    ∀ p ∈ b.t_residuals.zip b.d_residuals, p.2 = D_ENCODE_NO_EVENT → p.1 = 0

/-- Big-endian bytes of a u16 value. -/
def u16BeBytes (n : Nat) : List Nat := [n / 256 % 256, n % 256]

/-- Big-endian bytes of a u32 value. -/
def u32BeBytes (n : Nat) : List Nat :=
  [n / 2 ^ 24 % 256, n / 2 ^ 16 % 256, n / 2 ^ 8 % 256, n % 256]

/-- AduIntraBlock from adu/intrablock.rs (not under src/; its fields are
given by the spec data model §3). -/
structure AduIntraBlock where
  head_event_d : Nat
  head_event_t : Nat
  shift_loss_param : Nat
  d_residuals : List Int
  dt_residuals : List Int
deriving DecidableEq, Repr

/-- Modelled from the spec (§4.7 IntraBlock encode; intrablock.rs is not
under src/): head_event_d, the four big-endian bytes of head_event_t and the
shift parameter under the byte context, then d residuals, then elided dt
residuals. -/
def AduIntraBlock.compress (b : AduIntraBlock) (dtm : Int) : List Sym :=
  (Ctx.u8General, some (b.head_event_d : Int)) ::
    ((u32BeBytes b.head_event_t).map (fun v => (Ctx.u8General, some (v : Int)))
      ++ (Ctx.u8General, some (b.shift_loss_param : Int)) ::
        (compress_d_residuals b.d_residuals ++
          compress_dt_residuals b.dt_residuals b.d_residuals dtm))

/-- Modelled from the spec (§4.7): the structural inverse of the intra block
encode, with the same context sequence. -/
def AduIntraBlock.decompress (dtm : Int) (s : List Sym) :
    Option (AduIntraBlock × List Sym) :=
  match s with
  | (Ctx.u8General, some vd) :: (Ctx.u8General, some t0) ::
      (Ctx.u8General, some t1) :: (Ctx.u8General, some t2) ::
      (Ctx.u8General, some t3) :: (Ctx.u8General, some vs) :: s1 =>
      match decompress_d_residuals BLOCK_SIZE_AREA s1 with
      | some (ds, s2) =>
          match decompress_dt_residuals (List.replicate BLOCK_SIZE_AREA 0) ds
              dtm s2 with
          | some (ts, s3) =>
              some (({ head_event_d := vd.toNat % 256,
                       head_event_t := (t0.toNat % 256) * 2 ^ 24 +
                         (t1.toNat % 256) * 2 ^ 16 + (t2.toNat % 256) * 2 ^ 8 +
                         t3.toNat % 256,
                       shift_loss_param := vs.toNat % 256,
                       d_residuals := ds,
                       dt_residuals := ts } : AduIntraBlock), s3)
          | none => none
      | none => none
  | _ => none

/-- Wellformedness of an intra block: u8 and u32 field bounds, 256-entry
arrays, zero dt residual at sentinel positions. -/
abbrev AduIntraBlock.wf (b : AduIntraBlock) : Prop :=
  b.head_event_d < 256 ∧ b.head_event_t < 2 ^ 32 ∧ b.shift_loss_param < 256 ∧
    b.d_residuals.length = BLOCK_SIZE_AREA ∧
    b.dt_residuals.length = BLOCK_SIZE_AREA ∧
    ∀ p ∈ b.dt_residuals.zip b.d_residuals, p.2 = D_ENCODE_NO_EVENT → p.1 = 0

/-- AduCube from adu/cube.rs (not under src/; fields given by the spec data
model §3). -/
structure AduCube where
  idx_y : Nat
  idx_x : Nat
  intra_block : AduIntraBlock
  num_inter_blocks : Nat
  inter_blocks : List AduInterBlock
deriving DecidableEq, Repr

/-- Modelled from the spec (§4.7 step 2b; cube.rs is not under src/): idx_y
and idx_x under the byte context, the intra block, num_inter_blocks as two
big-endian bytes, then each inter block. -/
def AduCube.compress (c : AduCube) (dtm : Int) : List Sym :=
  (Ctx.u8General, some (c.idx_y : Int)) ::
    (Ctx.u8General, some (c.idx_x : Int)) ::
    (c.intra_block.compress dtm ++
      ((u16BeBytes c.num_inter_blocks).map
        (fun v => (Ctx.u8General, some (v : Int))) ++
        (c.inter_blocks.map (fun ib => ib.compress dtm)).flatten))

/-- Reading a counted run of inter blocks during cube decompression. -/
def decompressInterBlocks (dtm : Int) : Nat → List Sym →
    Option (List AduInterBlock × List Sym)
  | 0, s => some ([], s)
  | n + 1, s =>
      match AduInterBlock.decompress dtm s with
      | some (ib, s1) =>
          match decompressInterBlocks dtm n s1 with
          | some (ibs, s2) => some (ib :: ibs, s2)
          | none => none
      | none => none

/-- Modelled from the spec (§4.7): the structural inverse of the cube
encode; the inter block count comes from the explicit two-byte counter. -/
def AduCube.decompress (dtm : Int) (s : List Sym) :
    Option (AduCube × List Sym) :=
  match s with
  | (Ctx.u8General, some vy) :: (Ctx.u8General, some vx) :: s1 =>
      match AduIntraBlock.decompress dtm s1 with
      | some (intra, s2) =>
          match s2 with
          | (Ctx.u8General, some b0) :: (Ctx.u8General, some b1) :: s3 =>
              match decompressInterBlocks dtm
                  ((b0.toNat % 256) * 256 + b1.toNat % 256) s3 with
              | some (ibs, s4) =>
                  some ({ idx_y := vy.toNat % 256, idx_x := vx.toNat % 256,
                          intra_block := intra,
                          num_inter_blocks := (b0.toNat % 256) * 256 +
                            b1.toNat % 256,
                          inter_blocks := ibs }, s4)
              | none => none
          | _ => none
      | none => none
  | _ => none

/-- Wellformedness of a cube: u8 indices, a wellformed intra block, a
consistent u16 inter block counter, wellformed inter blocks. -/
abbrev AduCube.wf (c : AduCube) : Prop :=
  c.idx_y < 256 ∧ c.idx_x < 256 ∧ c.intra_block.wf ∧
    c.num_inter_blocks = c.inter_blocks.length ∧
    c.num_inter_blocks < 65536 ∧ ∀ ib ∈ c.inter_blocks, ib.wf

/-- AduChannel from adu/frame.rs. -/
structure AduChannel where
  num_cubes : Nat
  cubes : List AduCube
deriving DecidableEq, Repr

/-- AduChannel::compress from adu/frame.rs: the two big-endian bytes of
num_cubes under the u8_general context, then every cube in order.  No EOF
symbol and no eof-context symbol is ever produced here. -/
def AduChannel.compress (ch : AduChannel) (dtm : Int) : List Sym :=
  (u16BeBytes ch.num_cubes).map (fun v => (Ctx.u8General, some (v : Int))) ++
    (ch.cubes.map (fun c => c.compress dtm)).flatten

/-- Reading a counted run of cubes during channel decompression. -/
def decompressCubes (dtm : Int) : Nat → List Sym →
    Option (List AduCube × List Sym)
  | 0, s => some ([], s)
  | n + 1, s =>
      match AduCube.decompress dtm s with
      | some (c, s1) =>
          match decompressCubes dtm n s1 with
          | some (cs, s2) => some (c :: cs, s2)
          | none => none
      | none => none

/-- AduChannel::decompress from adu/frame.rs: read the two num_cubes bytes
under the byte context (each cast to u8), then exactly num_cubes cubes. -/
def AduChannel.decompress (dtm : Int) (s : List Sym) :
    Option (AduChannel × List Sym) :=
  match s with
  | (Ctx.u8General, some b0) :: (Ctx.u8General, some b1) :: s1 =>
      match decompressCubes dtm ((b0.toNat % 256) * 256 + b1.toNat % 256) s1 with
      | some (cubes, s2) =>
          some ({ num_cubes := (b0.toNat % 256) * 256 + b1.toNat % 256,
                  cubes := cubes }, s2)
      | none => none
  | _ => none

/-- Wellformedness of a channel: the counter matches the cube list and fits
in a u16, and every cube is wellformed. -/
abbrev AduChannel.wf (ch : AduChannel) : Prop :=
  ch.num_cubes = ch.cubes.length ∧ ch.num_cubes < 65536 ∧
    ∀ c ∈ ch.cubes, c.wf

/-- Modelled from the spec (§9, test behavior): add_eof from the adu module
(not under src/) encodes the end-of-stream marker None under the eof
context; tests call it separately after AduChannel::compress. -/
def add_eof : List Sym := [(Ctx.eofCtx, none)]

/-- An inter block whose t residuals are all 1 while every d residual is the
no-event sentinel: all its t residuals lie inside any dtm of at least 1, yet
none of them can be carried on the wire. -/
def c2BadBlock : AduInterBlock :=
  { shift_loss_param := 0
    d_residuals := List.replicate 256 D_ENCODE_NO_EVENT
    t_residuals := List.replicate 256 1 }

/-- The mostly-empty inter block of the source test
test_decompress_mostly_empty_interblock: shift 7, d residuals all sentinel
except index 39 = -2, t residuals all zero except index 39 = -1. -/
def c2TestBlock : AduInterBlock :=
  { shift_loss_param := 7
    d_residuals := (List.replicate 256 D_ENCODE_NO_EVENT).set 39 (-2)
    t_residuals := (List.replicate 256 (0 : Int)).set 39 (-1) }

/-- A channel with no cubes. -/
def emptyChannel : AduChannel := { num_cubes := 0, cubes := [] }

/-- Unfolding of add_event through the resolved index mapping: the index used
is the cached one when present, else the freshly computed (and cached) one. -/
theorem Frame.addEvent_eq (f : Frame) (e : Event) :
    f.addEvent e =
      (let im := f.resolveIdx e
       let hm := match lookupIdx f.index_hashmap e.coord with
                 | some _ => f.index_hashmap
                 | none => (e.coord, f.eventCoordToBlockIdx e) :: f.index_hashmap
       match f.cubes.get? im.cube_idx with
       | none => (.panicked "index out of bounds", { f with index_hashmap := hm })
       | some cube =>
           match cube.setEvent e im.block_idx with
           | .ok c1 => (.ok im.cube_idx,
               { f with cubes := f.cubes.set im.cube_idx c1, index_hashmap := hm })
           | .failed er => (.failed er, { f with index_hashmap := hm })
           | .panicked msg => (.panicked msg, { f with index_hashmap := hm })) := by
  unfold Frame.addEvent Frame.resolveIdx
  cases hl : lookupIdx f.index_hashmap e.coord with
  | none => simp [lookupIdx, hl]
  | some v => simp [lookupIdx, hl]

/-- An occupied slot: countSome bound by list length. -/
theorem countSome_le_length (l : List (Option EventCoordless)) :
    countSome l ≤ l.length := by
  induction l with
  | nil => simp [countSome]
  | cons a t ih => cases a <;> simp [countSome] <;> omega

/-- Setting a previously empty slot to an event increases the occupied count
by one. -/
theorem countSome_set_of_none (l : List (Option EventCoordless)) (i : Nat)
    (x : EventCoordless) (h : l.get? i = some none) :
    countSome (l.set i (some x)) = countSome l + 1 := by
  induction l generalizing i with
  | nil => exact Option.noConfusion h
  | cons a t ih =>
    cases i with
    | zero =>
      have ha : a = none := by simpa using h
      subst ha
      simp [countSome]
    | succ i =>
      have h2 : t.get? i = some none := by simpa using h
      cases a <;> simp [countSome, ih i h2]

/-- The occupied count of an all-empty array is zero. -/
theorem countSome_replicate_none (n : Nat) :
    countSome (List.replicate n none) = 0 := by
  induction n with
  | zero => rfl
  | succ n ih => simpa [countSome, List.replicate] using ih

/-- Block::new is wellformed. -/
theorem blockNew_wf : Block.new.wf := by
  constructor
  · simp [Block.new, BLOCK_SIZE_AREA]
  · simp [Block.new, countSome_replicate_none]

/-- Block::set_event preserves block wellformedness. -/
theorem blockSetEvent_ok_wf (b : Block) (e : Event) (idx : Nat) (b1 : Block)
    (h : b.setEvent e idx = .ok b1) (hwf : b.wf) : b1.wf := by
  cases hg : b.events.get? idx with
  | none =>
      simp only [Block.setEvent, hg] at h
      exact BlockResult.noConfusion h
  | some o =>
      cases o with
      | some prev =>
          simp only [Block.setEvent, hg] at h
          exact BlockResult.noConfusion h
      | none =>
          simp only [Block.setEvent, hg] at h
          cases h
          constructor
          · simpa using hwf.1
          · simpa [countSome_set_of_none b.events idx _ hg] using hwf.2

/-- set_event_for_channel preserves wellformedness of the channel blocks. -/
theorem setEventForChannel_ok_wf (blocks : List Block) (map : List Nat)
    (e : Event) (idx : Nat) (bs : List Block) (m : List Nat)
    (h : setEventForChannel blocks map e idx = .ok (bs, m))
    (hwf : ∀ b ∈ blocks, b.wf) : ∀ b ∈ bs, b.wf := by
  cases hmi : map.get? idx with
  | none =>
      simp only [setEventForChannel, hmi] at h
      exact BlockResult.noConfusion h
  | some mi =>
      simp only [setEventForChannel, hmi] at h
      have hwf1 : ∀ b ∈ (if blocks.length ≤ mi then blocks ++ [Block.new]
          else blocks), b.wf := by
        split
        · intro b hb
          rcases List.mem_append.mp hb with hb | hb
          · exact hwf b hb
          · rcases List.mem_singleton.mp hb with rfl
            exact blockNew_wf
        · exact hwf
      cases hget : (if blocks.length ≤ mi then blocks ++ [Block.new]
          else blocks).get? mi with
      | none =>
          simp only [hget] at h
          exact BlockResult.noConfusion h
      | some b =>
          simp only [hget] at h
          cases hset : b.setEvent e idx with
          | ok b1 =>
              simp only [hset] at h
              cases h
              intro b2 hb2
              rcases List.mem_or_eq_of_mem_set hb2 with hb2 | rfl
              · exact hwf1 b2 hb2
              · exact blockSetEvent_ok_wf b e idx b2 hset
                  (hwf1 b (List.get?_mem hget))
          | failed er =>
              simp only [hset] at h
              exact BlockResult.noConfusion h
          | panicked msg =>
              simp only [hset] at h
              exact BlockResult.noConfusion h

/-- Cube::set_event preserves cube wellformedness. -/
theorem cubeSetEvent_ok_wf (cube : Cube) (e : Event) (bi : Nat) (c1 : Cube)
    (h : cube.setEvent e bi = .ok c1) (hwf : cube.wf) : c1.wf := by
  rcases hwf with ⟨hr, hg, hb⟩
  unfold Cube.setEvent at h
  rcases hc : e.coord.c.getD 0 with _ | _ | _ | c <;> simp only [hc] at h
  · cases hsc : setEventForChannel cube.blocks_r cube.block_idx_map_r e bi with
    | ok p =>
        obtain ⟨bs, m⟩ := p
        simp only [hsc] at h
        cases h
        exact ⟨setEventForChannel_ok_wf _ _ _ _ _ _ hsc hr, hg, hb⟩
    | failed er => simp only [hsc] at h; exact BlockResult.noConfusion h
    | panicked msg => simp only [hsc] at h; exact BlockResult.noConfusion h
  · cases hsc : setEventForChannel cube.blocks_g cube.block_idx_map_g e bi with
    | ok p =>
        obtain ⟨bs, m⟩ := p
        simp only [hsc] at h
        cases h
        exact ⟨hr, setEventForChannel_ok_wf _ _ _ _ _ _ hsc hg, hb⟩
    | failed er => simp only [hsc] at h; exact BlockResult.noConfusion h
    | panicked msg => simp only [hsc] at h; exact BlockResult.noConfusion h
  · cases hsc : setEventForChannel cube.blocks_b cube.block_idx_map_b e bi with
    | ok p =>
        obtain ⟨bs, m⟩ := p
        simp only [hsc] at h
        cases h
        exact ⟨hr, hg, setEventForChannel_ok_wf _ _ _ _ _ _ hsc hb⟩
    | failed er => simp only [hsc] at h; exact BlockResult.noConfusion h
    | panicked msg => simp only [hsc] at h; exact BlockResult.noConfusion h
  · exact BlockResult.noConfusion h

/-- Cube::new is wellformed. -/
theorem cubeNew_wf (y x c : Nat) : (Cube.new y x c).wf := by
  refine ⟨?_, ?_, ?_⟩ <;>
    · intro b hb
      rcases List.mem_singleton.mp hb with rfl
      exact blockNew_wf

/-- Frame::new is wellformed. -/
theorem Frame.new_wfBlocks (w h : Nat) (c : Bool) :
    (Frame.new w h c).wfBlocks := by
  intro cube hcube
  unfold Frame.new at hcube
  dsimp only at hcube
  rcases List.mem_flatten.mp hcube with ⟨l, hl, hcl⟩
  rcases List.mem_map.mp hl with ⟨y, _, rfl⟩
  rcases List.mem_map.mp hcl with ⟨x, _, rfl⟩
  exact cubeNew_wf y x 0

/-- A successful add_event preserves frame wellformedness. -/
theorem Frame.addEvent_ok_wf (f : Frame) (e : Event) (idx : Nat) (f1 : Frame)
    (h : f.addEvent e = (.ok idx, f1)) (hwf : f.wfBlocks) : f1.wfBlocks := by
  rw [Frame.addEvent_eq] at h
  dsimp only at h
  cases hcg : f.cubes.get? (f.resolveIdx e).cube_idx with
  | none =>
      simp only [hcg] at h
      exact BlockResult.noConfusion (congrArg Prod.fst h)
  | some cube =>
      simp only [hcg] at h
      cases hset : cube.setEvent e (f.resolveIdx e).block_idx with
      | ok c1 =>
          simp only [hset] at h
          have hf1 := congrArg Prod.snd h
          dsimp only at hf1
          subst hf1
          intro cube2 hcube2
          rcases List.mem_or_eq_of_mem_set hcube2 with hcube2 | rfl
          · exact hwf cube2 hcube2
          · exact cubeSetEvent_ok_wf cube e _ cube2 hset
              (hwf cube (List.get?_mem hcg))
      | failed er =>
          simp only [hset] at h
          exact BlockResult.noConfusion (congrArg Prod.fst h)
      | panicked msg =>
          simp only [hset] at h
          exact BlockResult.noConfusion (congrArg Prod.fst h)

/-- set_event_for_channel on an occupied target slot returns the
AlreadyExists error carrying the in-block index. -/
theorem setEventForChannel_occupied (blocks : List Block) (map : List Nat)
    (e : Event) (idx mi : Nat) (blk : Block) (prev : EventCoordless)
    (hmi : map.get? idx = some mi) (hblk : blocks.get? mi = some blk)
    (hocc : blk.events.get? idx = some (some prev)) :
    setEventForChannel blocks map e idx = .failed (.alreadyExists idx) := by
  have hlen : mi < blocks.length := by
    rcases List.get?_eq_some.mp hblk with ⟨hlt, _⟩
    exact hlt
  simp only [setEventForChannel, hmi]
  rw [if_neg (by omega)]
  simp only [hblk, Block.setEvent, hocc]

/-- Cube::set_event on an occupied target slot of a valid channel returns the
AlreadyExists error. -/
theorem Cube.setEvent_occupied (cube : Cube) (e : Event) (bi c mi : Nat)
    (blk : Block) (prev : EventCoordless)
    (hc : e.coord.c.getD 0 = c) (hc2 : c ≤ 2)
    (hmi : (cube.channelMap c).get? bi = some mi)
    (hblk : (cube.channelBlocks c).get? mi = some blk)
    (hocc : blk.events.get? bi = some (some prev)) :
    cube.setEvent e bi = .failed (.alreadyExists bi) := by
  interval_cases c
  · have key := setEventForChannel_occupied cube.blocks_r cube.block_idx_map_r
      e bi mi blk prev hmi hblk hocc
    simp only [Cube.setEvent, hc, key]
  · have key := setEventForChannel_occupied cube.blocks_g cube.block_idx_map_g
      e bi mi blk prev hmi hblk hocc
    simp only [Cube.setEvent, hc, key]
  · have key := setEventForChannel_occupied cube.blocks_b cube.block_idx_map_b
      e bi mi blk prev hmi hblk hocc
    simp only [Cube.setEvent, hc, key]

/-- C8: if add_event targets a (cube, block, in-block position) slot that is
already occupied, it returns the AlreadyExists error carrying that in-block
index, and the cubes of the frame — hence every block event array,
fill_count, and block_idx_map entry — are unchanged. -/
theorem c8_already_exists_unchanged (f : Frame) (e : Event) (cube : Cube)
    (mi : Nat) (blk : Block) (prev : EventCoordless)
    (hc2 : e.coord.c.getD 0 ≤ 2)
    (hcube : f.cubes.get? (f.resolveIdx e).cube_idx = some cube)
    (hmi : (cube.channelMap (e.coord.c.getD 0)).get?
      (f.resolveIdx e).block_idx = some mi)
    (hblk : (cube.channelBlocks (e.coord.c.getD 0)).get? mi = some blk)
    (hocc : blk.events.get? (f.resolveIdx e).block_idx = some (some prev)) :
    (f.addEvent e).1 = .failed (.alreadyExists (f.resolveIdx e).block_idx) ∧
    (f.addEvent e).2.cubes = f.cubes := by
  have hset := Cube.setEvent_occupied cube e (f.resolveIdx e).block_idx
    (e.coord.c.getD 0) mi blk prev rfl hc2 hmi hblk hocc
  rw [Frame.addEvent_eq]
  dsimp only
  simp only [hcube, hset]
  exact ⟨trivial, trivial⟩

/-- C8 witness: applying the theorem at the concrete occupied frame. -/
theorem c8_already_exists_unchanged_witness :
    c8Event.coord.c.getD 0 ≤ 2 ∧
    c8Frame.cubes.get? (c8Frame.resolveIdx c8Event).cube_idx = some c8Cube ∧
    (c8Cube.channelMap (c8Event.coord.c.getD 0)).get?
      (c8Frame.resolveIdx c8Event).block_idx = some 0 ∧
    (c8Cube.channelBlocks (c8Event.coord.c.getD 0)).get? 0 = some c8Block ∧
    c8Block.events.get? (c8Frame.resolveIdx c8Event).block_idx =
      some (some ⟨5, 10⟩) ∧
    ((c8Frame.addEvent c8Event).1 =
      .failed (.alreadyExists (c8Frame.resolveIdx c8Event).block_idx) ∧
     (c8Frame.addEvent c8Event).2.cubes = c8Frame.cubes) :=
  ⟨by decide, by decide, by decide, by decide, by decide,
   c8_already_exists_unchanged c8Frame c8Event c8Cube 0 c8Block ⟨5, 10⟩
     (by decide) (by decide) (by decide) (by decide) (by decide)⟩

/-- C9: in every frame reachable by successful add_event calls from
Frame::new, every block of every channel of every cube has fill_count equal
to the number of occupied slots of its 256-entry events array, and therefore
fill_count is at most 256. -/
theorem c9_fill_count_invariant (f : Frame) (hf : Reachable f) :
    ∀ cube ∈ f.cubes, ∀ b : Block,
      (b ∈ cube.blocks_r ∨ b ∈ cube.blocks_g ∨ b ∈ cube.blocks_b) →
      b.fill_count = countSome b.events ∧ b.fill_count ≤ 256 := by
  have hwf : f.wfBlocks := by
    induction hf with
    | base w h c => exact Frame.new_wfBlocks w h c
    | step f0 e idx f1 hr heq ih => exact Frame.addEvent_ok_wf f0 e idx f1 heq ih
  intro cube hcube b hb
  have hcw := hwf cube hcube
  have hbw : b.wf := by
    rcases hb with h | h | h
    exacts [hcw.1 b h, hcw.2.1 b h, hcw.2.2 b h]
  refine ⟨hbw.2, ?_⟩
  calc b.fill_count = countSome b.events := hbw.2
    _ ≤ b.events.length := countSome_le_length _
    _ = 256 := hbw.1

/-- C9 witness: the invariant instantiated at the freshly created 16 by 16
frame and its unique cube's first R block. -/
theorem c9_fill_count_invariant_witness :
    Block.new.fill_count = countSome Block.new.events ∧
    Block.new.fill_count ≤ 256 :=
  c9_fill_count_invariant (Frame.new 16 16 true) (Reachable.base 16 16 true)
    (Cube.new 0 0 0) (by decide) Block.new (Or.inl (by decide))

/-- C10: add_event on an in-bounds event whose channel is Some c with c at
least 3 does not return a result: the Cube::set_event match falls through to
the panic arm with message "Invalid color". -/
theorem c10_invalid_color_panics (f : Frame) (e : Event) (c : Nat)
    (cube : Cube) (hc : e.coord.c = some c) (h3 : 3 ≤ c)
    (hcube : f.cubes.get? (f.resolveIdx e).cube_idx = some cube) :
    (f.addEvent e).1 = .panicked "Invalid color" := by
  have hset : cube.setEvent e (f.resolveIdx e).block_idx =
      .panicked "Invalid color" := by
    unfold Cube.setEvent
    rw [hc]
    rcases c with _ | _ | _ | c
    · exfalso; omega
    · exfalso; omega
    · exfalso; omega
    · rfl
  rw [Frame.addEvent_eq]
  dsimp only
  simp only [hcube, hset]

/-- C10 witness: the panic at the concrete fresh 16 by 16 frame. -/
theorem c10_invalid_color_panics_witness :
    c10Event.coord.c = some 3 ∧ 3 ≤ 3 ∧
    (Frame.new 16 16 true).cubes.get?
      ((Frame.new 16 16 true).resolveIdx c10Event).cube_idx =
      some (Cube.new 0 0 0) ∧
    ((Frame.new 16 16 true).addEvent c10Event).1 =
      .panicked "Invalid color" :=
  ⟨by decide, by decide, by decide,
   c10_invalid_color_panics (Frame.new 16 16 true) c10Event 3 (Cube.new 0 0 0)
     (by decide) (by decide) (by decide)⟩

/-- Helper bound: a u32 has at most 32 leading zeros. -/
theorem u32LeadingZeros_le (n : Nat) : u32LeadingZeros n ≤ 32 := by
  unfold u32LeadingZeros; omega

/-- C3: whenever the D residual next.d - previous.d has absolute value
greater than 20, predict_residual_from_prev predicts delta_t equal to
previous.delta_t, so the returned residual is exactly
(next.d - previous.d, next.delta_t - previous.delta_t).  For positive
residuals in 21..=2016 the first match arm is entered (its pattern is the
literal 2016, not 20), but its guard d_resid <= leading_zeros/2 <= 16 always
fails, so the outcome is previous.delta_t there as well. -/
theorem c3_predictor_fallback (previous next : EventCoordless) (dtm : Nat)
    (hd1 : previous.d < 256) (hd2 : next.d < 256)
    (hr : 20 < ((next.d : Int) - (previous.d : Int)).natAbs) :
    predictResidualFromPrev previous next dtm =
      ⟨(next.d : Int) - (previous.d : Int),
       (next.delta_t : Int) - (previous.delta_t : Int)⟩ := by
  have hlz : u32LeadingZeros previous.delta_t ≤ 32 := u32LeadingZeros_le _
  unfold predictResidualFromPrev
  dsimp only
  split_ifs with h1 h2 h3 h4 <;> first
    | rfl
    | (exfalso; omega)

/-- C3 witness at previous = (d:0, delta_t:100), next = (d:30, delta_t:500),
delta_t_max = 1000. -/
theorem c3_predictor_fallback_witness :
    (0 : Nat) < 256 ∧ (30 : Nat) < 256 ∧
    20 < ((((30 : Nat) : Int)) - (((0 : Nat) : Int))).natAbs ∧
    predictResidualFromPrev ⟨0, 100⟩ ⟨30, 500⟩ 1000 =
      ⟨(((30 : Nat) : Int)) - (((0 : Nat) : Int)),
       (((500 : Nat) : Int)) - (((100 : Nat) : Int))⟩ :=
  ⟨by decide, by decide, by decide,
   c3_predictor_fallback ⟨0, 100⟩ ⟨30, 500⟩ 1000 (by decide) (by decide)
     (by decide)⟩

/-- C4: for D residuals in -20..=-1 the negative arm is entered, and
max(previous.delta_t >> -d_resid, previous.delta_t) always equals
previous.delta_t (a right shift never exceeds the original), so whichever
side of the inner guard is taken, the prediction is previous.delta_t and the
delta_t residual is next.delta_t - previous.delta_t. -/
theorem c4_negative_shift_dead (previous next : EventCoordless) (dtm : Nat)
    (hlo : -20 ≤ (next.d : Int) - (previous.d : Int))
    (hhi : (next.d : Int) - (previous.d : Int) ≤ -1) :
    (∀ k : Nat, max ((previous.delta_t >>> k : Nat) : Int)
        (previous.delta_t : Int) = (previous.delta_t : Int)) ∧
    predictResidualFromPrev previous next dtm =
      ⟨(next.d : Int) - (previous.d : Int),
       (next.delta_t : Int) - (previous.delta_t : Int)⟩ := by
  have hmax : ∀ k : Nat, max ((previous.delta_t >>> k : Nat) : Int)
      (previous.delta_t : Int) = (previous.delta_t : Int) := by
    intro k
    have h : previous.delta_t >>> k ≤ previous.delta_t := by
      rw [Nat.shiftRight_eq_div_pow]
      exact Nat.div_le_self _ _
    exact max_eq_right (by exact_mod_cast h)
  refine ⟨hmax, ?_⟩
  unfold predictResidualFromPrev
  dsimp only
  split_ifs with h1 h2 h3 h4 <;> first
    | rfl
    | (exfalso; omega)
    | (rw [hmax])

/-- C4 witness at previous = (d:10, delta_t:96), next = (d:5, delta_t:7),
delta_t_max = 1000 (d residual -5, guard true, so the max branch runs). -/
theorem c4_negative_shift_dead_witness :
    (-20 : Int) ≤ (((5 : Nat) : Int)) - (((10 : Nat) : Int)) ∧
    (((5 : Nat) : Int)) - (((10 : Nat) : Int)) ≤ -1 ∧
    ((∀ k : Nat, max (((96 : Nat) >>> k : Nat) : Int) (((96 : Nat) : Int)) =
        (((96 : Nat) : Int))) ∧
     predictResidualFromPrev ⟨10, 96⟩ ⟨5, 7⟩ 1000 =
      ⟨(((5 : Nat) : Int)) - (((10 : Nat) : Int)),
       (((7 : Nat) : Int)) - (((96 : Nat) : Int))⟩) :=
  ⟨by decide, by decide,
   c4_negative_shift_dead ⟨10, 96⟩ ⟨5, 7⟩ 1000 (by decide) (by decide)⟩

/-- C1 counterexample: for Frame::new(640, 480, true) and the event at
(x:27, y:13, c:Some(2)), add_event succeeds and returns cube index 1, but the
in-cube block position is 219 = (13 % 16)*16 + (27 % 16), not 235 = 13*16+27:
after the add, B-channel slot 235 of cube 1 is still empty, while slot 219
holds the event. -/
theorem c1_block_idx_counterexample :
    ((Frame.new 640 480 true).addEvent c1Event).1 = .ok 1 ∧
    (Frame.new 640 480 true).eventCoordToBlockIdx c1Event = ⟨1, 219⟩ ∧
    (219 : Nat) ≠ 235 ∧
    ((Frame.new 640 480 true).addEvent c1Event).2.bSlot 1 0 235 = some none ∧
    ((Frame.new 640 480 true).addEvent c1Event).2.bSlot 1 0 219 =
      some (some ⟨7, 100⟩) := by
  refine ⟨by decide, by decide, by decide, by decide, by decide⟩

/-- C1 amended: for Frame::new(640, 480, true), adding the event with coord
(x:27, y:13, c:Some(2)) succeeds and routes the event to cube index 1 and
in-cube block position 219 (computed as (13 % 16)*16 + (27 % 16)) in the B
channel of that cube. -/
theorem c1_frame_tiling_amended :
    ((Frame.new 640 480 true).addEvent c1Event).1 = .ok 1 ∧
    (Frame.new 640 480 true).eventCoordToBlockIdx c1Event = ⟨1, 219⟩ ∧
    ((Frame.new 640 480 true).addEvent c1Event).2.bSlot 1 0 219 =
      some (some ⟨7, 100⟩) := by
  refine ⟨by decide, by decide, by decide⟩

/-- Reading back exactly the d residuals that were written, leaving the rest
of the stream untouched. -/
theorem decompress_d_of_compress (ds : List Int) (rest : List Sym) :
    decompress_d_residuals ds.length (compress_d_residuals ds ++ rest) =
      some (ds, rest) := by
  induction ds with
  | nil => rfl
  | cons d ds ih =>
      have hstep : compress_d_residuals (d :: ds) ++ rest =
          (Ctx.dCtx, some d) :: (compress_d_residuals ds ++ rest) := rfl
      rw [List.length_cons, hstep]
      simp only [decompress_d_residuals, ih]

/-- The t residual offset map is undone by its inverse. -/
theorem dt_offset_inverse_of_offset (r dtm : Int) :
    dt_resid_offset_inverse (dt_resid_offset r dtm) dtm = r := by
  simp [dt_resid_offset, dt_resid_offset_inverse]

/-- Reading back the elided dt residuals that were written against the same
d residual array: positions whose d residual is the sentinel keep the
initial array value, the others are restored exactly. -/
theorem decompress_dt_of_compress (ds : List Int) : ∀ (ts init : List Int)
    (dtm : Int) (rest : List Sym), ts.length = ds.length →
    init.length = ds.length →
    decompress_dt_residuals init ds dtm
        (compress_dt_residuals ts ds dtm ++ rest) =
      some (mergeResiduals init ts ds, rest) := by
  induction ds with
  | nil =>
      intro ts init dtm rest hlen hinit
      cases ts <;> cases init <;> rfl
  | cons d ds ih =>
      intro ts init dtm rest hlen hinit
      cases ts with
      | nil => exact absurd hlen (by simp)
      | cons t ts =>
          cases init with
          | nil => exact absurd hinit (by simp)
          | cons i0 is0 =>
              have hlen2 : ts.length = ds.length := by simpa using hlen
              have hinit2 : is0.length = ds.length := by simpa using hinit
              by_cases hd : d = D_ENCODE_NO_EVENT
              · simp only [compress_dt_residuals, decompress_dt_residuals,
                  mergeResiduals, hd, ne_eq, not_true_eq_false, if_false,
                  if_true, ih ts is0 dtm rest hlen2 hinit2]
              · simp only [compress_dt_residuals, decompress_dt_residuals,
                  mergeResiduals, ne_eq, hd, not_false_eq_true, if_true,
                  if_false, List.cons_append,
                  ih ts is0 dtm rest hlen2 hinit2,
                  dt_offset_inverse_of_offset]

/-- When every t residual at a sentinel position is zero, merging against
the all-zero initial array restores the original t residuals. -/
theorem mergeResiduals_self (ds : List Int) : ∀ ts : List Int,
    ts.length = ds.length →
    (∀ p ∈ ts.zip ds, p.2 = D_ENCODE_NO_EVENT → p.1 = 0) →
    mergeResiduals (List.replicate ds.length 0) ts ds = ts := by
  induction ds with
  | nil =>
      intro ts hlen _
      cases ts with
      | nil => rfl
      | cons t ts => exact absurd hlen (by simp)
  | cons d ds ih =>
      intro ts hlen hzero
      cases ts with
      | nil => exact absurd hlen (by simp)
      | cons t ts =>
          have hlen2 : ts.length = ds.length := by simpa using hlen
          rw [List.length_cons, List.replicate_succ]
          show (if d = D_ENCODE_NO_EVENT then 0 else t) ::
            mergeResiduals (List.replicate ds.length 0) ts ds = t :: ts
          rw [ih ts hlen2 (fun p hp => hzero p (List.mem_cons_of_mem _ hp))]
          by_cases hd : d = D_ENCODE_NO_EVENT
          · have ht0 : t = 0 := hzero (t, d) (List.mem_cons_self _ _) hd
            rw [if_pos hd, ht0]
          · rw [if_neg hd]

/-- An entry of a replicated list. -/
theorem get?_replicate_of_lt (n i : Nat) (a : Int) (h : i < n) :
    (List.replicate n a).get? i = some a := by
  induction n generalizing i with
  | zero => omega
  | succ n ih =>
      cases i with
      | zero => rfl
      | succ i => simpa [List.replicate_succ] using ih i (by omega)

/-- At a sentinel position the merged residuals return the initial entry. -/
theorem mergeResiduals_get_sentinel (ds : List Int) : ∀ (init ts : List Int)
    (i : Nat), ts.length = ds.length → init.length = ds.length →
    ds.get? i = some D_ENCODE_NO_EVENT →
    (mergeResiduals init ts ds).get? i = init.get? i := by
  induction ds with
  | nil => intro init ts i _ _ hd; exact Option.noConfusion hd
  | cons d ds ih =>
      intro init ts i hlen hinit hd
      cases ts with
      | nil => exact absurd hlen (by simp)
      | cons t ts =>
          cases init with
          | nil => exact absurd hinit (by simp)
          | cons i0 is0 =>
              cases i with
              | zero =>
                  have hd0 : d = D_ENCODE_NO_EVENT := by simpa using hd
                  show ((if d = D_ENCODE_NO_EVENT then i0 else t) ::
                    mergeResiduals is0 ts ds).get? 0 = some i0
                  rw [if_pos hd0]
                  rfl
              | succ i =>
                  have hd2 : ds.get? i = some D_ENCODE_NO_EVENT := by
                    simpa using hd
                  show ((if d = D_ENCODE_NO_EVENT then i0 else t) ::
                    mergeResiduals is0 ts ds).get? (i + 1) = (i0 :: is0).get? (i + 1)
                  have := ih is0 ts i (by simpa using hlen) (by simpa using hinit) hd2
                  simpa using this

/-- Decompressing a compressed inter block restores the block exactly (the
shift parameter modulo its u8 width, the d residuals, and the t residuals
given that sentinel positions carry zero), consuming exactly the compressed
symbols. -/
theorem interblock_decompress_compress (b : AduInterBlock) (dtm : Int)
    (hwf : b.wf) (rest : List Sym) :
    AduInterBlock.decompress dtm (b.compress dtm ++ rest) = some (b, rest) := by
  obtain ⟨hs, hd, ht, hz⟩ := hwf
  have hstream : b.compress dtm ++ rest =
      (Ctx.u8General, some (b.shift_loss_param : Int)) ::
        (compress_d_residuals b.d_residuals ++
          (compress_dt_residuals b.t_residuals b.d_residuals dtm ++ rest)) := by
    simp [AduInterBlock.compress, List.append_assoc]
  have h1 : decompress_d_residuals b.d_residuals.length
      (compress_d_residuals b.d_residuals ++
        (compress_dt_residuals b.t_residuals b.d_residuals dtm ++ rest)) =
      some (b.d_residuals,
        compress_dt_residuals b.t_residuals b.d_residuals dtm ++ rest) :=
    decompress_d_of_compress _ _
  have h2 : decompress_dt_residuals
      (List.replicate b.d_residuals.length 0) b.d_residuals dtm
      (compress_dt_residuals b.t_residuals b.d_residuals dtm ++ rest) =
      some (mergeResiduals (List.replicate b.d_residuals.length 0)
        b.t_residuals b.d_residuals, rest) :=
    decompress_dt_of_compress b.d_residuals b.t_residuals _ dtm rest
      (by omega) (by simp)
  have h3 : mergeResiduals (List.replicate b.d_residuals.length 0)
      b.t_residuals b.d_residuals = b.t_residuals := by
    rw [← hd] at ht
    exact mergeResiduals_self b.d_residuals b.t_residuals ht hz
  rw [hstream]
  simp only [AduInterBlock.decompress, ← hd, h1, h2, h3]
  simp [Nat.mod_eq_of_lt hs]

/-- C2 counterexample: the all-sentinel inter block with every t residual 1
has all t residuals inside [-102000, 102000], yet decompressing its
compressed stream returns the block with every t residual 0: the claim fails
for inter blocks carrying nonzero t residuals at no-event positions, because
those residuals are elided on the wire and re-initialized to zero. -/
theorem c2_roundtrip_counterexample :
    c2BadBlock.t_residuals.all
      (fun t => decide (-(102000 : Int) ≤ t ∧ t ≤ 102000)) = true ∧
    AduInterBlock.decompress 102000 (c2BadBlock.compress 102000) =
      some ({ shift_loss_param := 0
              d_residuals := List.replicate 256 D_ENCODE_NO_EVENT
              t_residuals := List.replicate 256 0 }, []) ∧
    List.replicate 256 (0 : Int) ≠ c2BadBlock.t_residuals := by
  refine ⟨by decide, by decide, by decide⟩

/-- C2 amended: for every AduInterBlock whose t_residuals all lie in
[-delta_t_max, delta_t_max] and are zero at every position whose d residual
is D_ENCODE_NO_EVENT (wellformedness) — in particular the mostly-empty test
block — decompressing the compressed stream restores shift_loss_param,
d_residuals and t_residuals exactly. -/
theorem c2_interblock_roundtrip_amended (b : AduInterBlock) (dtm : Int)
    (hwf : b.wf) (_hrange : ∀ t ∈ b.t_residuals, -dtm ≤ t ∧ t ≤ dtm) :
    AduInterBlock.decompress dtm (b.compress dtm) = some (b, []) := by
  simpa using interblock_decompress_compress b dtm hwf []

/-- C2 witness: the mostly-empty inter block of the source test under
delta_t_max = 102000. -/
theorem c2_interblock_roundtrip_amended_witness :
    c2TestBlock.wf ∧
    (∀ t ∈ c2TestBlock.t_residuals, -(102000 : Int) ≤ t ∧ t ≤ 102000) ∧
    AduInterBlock.decompress 102000 (c2TestBlock.compress 102000) =
      some (c2TestBlock, []) :=
  ⟨by decide, by decide,
   c2_interblock_roundtrip_amended c2TestBlock 102000 (by decide) (by decide)⟩

/-- C5: during inter block compression a dt residual symbol is produced for
position i exactly when the d residual there is not D_ENCODE_NO_EVENT, in
increasing index order (the filter formulation); decompression reads those
symbols back in the same order consuming exactly them, and every sentinel
position keeps its initial t residual of 0. -/
theorem c5_dt_residual_elision (ts ds : List Int) (dtm : Int)
    (rest : List Sym) (hlen : ts.length = ds.length) :
    compress_dt_residuals ts ds dtm =
      ((ts.zip ds).filter (fun p => p.2 ≠ D_ENCODE_NO_EVENT)).map
        (fun p => (Ctx.dtCtx, some (dt_resid_offset p.1 dtm))) ∧
    decompress_dt_residuals (List.replicate ds.length 0) ds dtm
        (compress_dt_residuals ts ds dtm ++ rest) =
      some (mergeResiduals (List.replicate ds.length 0) ts ds, rest) ∧
    ∀ i, ds.get? i = some D_ENCODE_NO_EVENT →
      (mergeResiduals (List.replicate ds.length 0) ts ds).get? i = some 0 := by
  refine ⟨?_, ?_, ?_⟩
  · clear rest
    induction ds generalizing ts with
    | nil => cases ts <;> rfl
    | cons d ds ih =>
        cases ts with
        | nil => exact absurd hlen (by simp)
        | cons t ts =>
            have hlen2 : ts.length = ds.length := by simpa using hlen
            by_cases hd : d = D_ENCODE_NO_EVENT
            · simpa [compress_dt_residuals, List.zip_cons_cons, hd]
                using ih ts hlen2
            · simpa [compress_dt_residuals, List.zip_cons_cons, hd]
                using ih ts hlen2
  · exact decompress_dt_of_compress ds ts _ dtm rest hlen (by simp)
  · intro i hdi
    have hi : i < ds.length := by
      rcases List.get?_eq_some.mp hdi with ⟨hlt, _⟩
      exact hlt
    rw [mergeResiduals_get_sentinel ds (List.replicate ds.length 0) ts i hlen
      (by simp) hdi]
    exact get?_replicate_of_lt _ _ _ hi

/-- C5 witness: a two-entry instance with one sentinel and one live
position. -/
theorem c5_dt_residual_elision_witness :
    ([(5 : Int), 9].length = [D_ENCODE_NO_EVENT, (3 : Int)].length) ∧
    (compress_dt_residuals [5, 9] [D_ENCODE_NO_EVENT, 3] 100 =
      (([(5 : Int), 9].zip [D_ENCODE_NO_EVENT, (3 : Int)]).filter
        (fun p => p.2 ≠ D_ENCODE_NO_EVENT)).map
        (fun p => (Ctx.dtCtx, some (dt_resid_offset p.1 100))) ∧
     decompress_dt_residuals
        (List.replicate [D_ENCODE_NO_EVENT, (3 : Int)].length 0)
        [D_ENCODE_NO_EVENT, 3] 100
        (compress_dt_residuals [5, 9] [D_ENCODE_NO_EVENT, 3] 100 ++ []) =
      some (mergeResiduals
        (List.replicate [D_ENCODE_NO_EVENT, (3 : Int)].length 0)
        [5, 9] [D_ENCODE_NO_EVENT, 3], []) ∧
     ∀ i, [D_ENCODE_NO_EVENT, (3 : Int)].get? i = some D_ENCODE_NO_EVENT →
      (mergeResiduals
        (List.replicate [D_ENCODE_NO_EVENT, (3 : Int)].length 0)
        [5, 9] [D_ENCODE_NO_EVENT, 3]).get? i = some 0) :=
  ⟨by decide, c5_dt_residual_elision [5, 9] [D_ENCODE_NO_EVENT, 3] 100 []
    (by decide)⟩

/-- Every symbol written for d residuals is a real (non-EOS) symbol under
the d context. -/
theorem mem_compress_d_good (ds : List Int) (x : Sym)
    (hx : x ∈ compress_d_residuals ds) :
    x.1 = Ctx.dCtx ∧ ∃ v, x.2 = some v := by
  rcases List.mem_map.mp hx with ⟨d, _, rfl⟩
  exact ⟨rfl, d, rfl⟩

/-- Every symbol written for dt residuals is a real symbol under the dt
context. -/
theorem mem_compress_dt_good (ts : List Int) : ∀ (ds : List Int) (dtm : Int)
    (x : Sym), x ∈ compress_dt_residuals ts ds dtm →
    x.1 = Ctx.dtCtx ∧ ∃ v, x.2 = some v := by
  induction ts with
  | nil =>
      intro ds dtm x hx
      cases ds <;> simp [compress_dt_residuals] at hx
  | cons t ts ih =>
      intro ds dtm x hx
      cases ds with
      | nil => simp [compress_dt_residuals] at hx
      | cons d ds =>
          by_cases hd : d = D_ENCODE_NO_EVENT
          · have hx2 : x ∈ compress_dt_residuals ts ds dtm := by
              simpa [compress_dt_residuals, hd] using hx
            exact ih ds dtm x hx2
          · have hx2 : x ∈ (Ctx.dtCtx, some (dt_resid_offset t dtm)) ::
                compress_dt_residuals ts ds dtm := by
              simpa [compress_dt_residuals, hd] using hx
            rcases List.mem_cons.mp hx2 with rfl | hx3
            · exact ⟨rfl, _, rfl⟩
            · exact ih ds dtm x hx3

/-- Every symbol written by an inter block is a real symbol under the byte,
d, or dt context. -/
theorem mem_interblock_compress_good (b : AduInterBlock) (dtm : Int) (x : Sym)
    (hx : x ∈ b.compress dtm) :
    (x.1 = Ctx.u8General ∨ x.1 = Ctx.dCtx ∨ x.1 = Ctx.dtCtx) ∧
      ∃ v, x.2 = some v := by
  rcases List.mem_cons.mp hx with rfl | hx2
  · exact ⟨Or.inl rfl, _, rfl⟩
  · rcases List.mem_append.mp hx2 with hx3 | hx3
    · rcases mem_compress_d_good _ x hx3 with ⟨h1, h2⟩
      exact ⟨Or.inr (Or.inl h1), h2⟩
    · rcases mem_compress_dt_good _ _ _ x hx3 with ⟨h1, h2⟩
      exact ⟨Or.inr (Or.inr h1), h2⟩

/-- Every symbol written by an intra block is a real symbol under the byte,
d, or dt context. -/
theorem mem_intra_compress_good (b : AduIntraBlock) (dtm : Int) (x : Sym)
    (hx : x ∈ b.compress dtm) :
    (x.1 = Ctx.u8General ∨ x.1 = Ctx.dCtx ∨ x.1 = Ctx.dtCtx) ∧
      ∃ v, x.2 = some v := by
  rcases List.mem_cons.mp hx with rfl | hx2
  · exact ⟨Or.inl rfl, _, rfl⟩
  · rcases List.mem_append.mp hx2 with hx3 | hx3
    · rcases List.mem_map.mp hx3 with ⟨v, _, rfl⟩
      exact ⟨Or.inl rfl, _, rfl⟩
    · rcases List.mem_cons.mp hx3 with rfl | hx4
      · exact ⟨Or.inl rfl, _, rfl⟩
      · rcases List.mem_append.mp hx4 with hx5 | hx5
        · rcases mem_compress_d_good _ x hx5 with ⟨h1, h2⟩
          exact ⟨Or.inr (Or.inl h1), h2⟩
        · rcases mem_compress_dt_good _ _ _ x hx5 with ⟨h1, h2⟩
          exact ⟨Or.inr (Or.inr h1), h2⟩

/-- Every symbol written by a cube is a real symbol under the byte, d, or dt
context. -/
theorem mem_cube_compress_good (c : AduCube) (dtm : Int) (x : Sym)
    (hx : x ∈ c.compress dtm) :
    (x.1 = Ctx.u8General ∨ x.1 = Ctx.dCtx ∨ x.1 = Ctx.dtCtx) ∧
      ∃ v, x.2 = some v := by
  rcases List.mem_cons.mp hx with rfl | hx1
  · exact ⟨Or.inl rfl, _, rfl⟩
  rcases List.mem_cons.mp hx1 with rfl | hx2
  · exact ⟨Or.inl rfl, _, rfl⟩
  rcases List.mem_append.mp hx2 with hx3 | hx3
  · exact mem_intra_compress_good _ _ x hx3
  rcases List.mem_append.mp hx3 with hx4 | hx4
  · rcases List.mem_map.mp hx4 with ⟨v, _, rfl⟩
    exact ⟨Or.inl rfl, _, rfl⟩
  · rcases List.mem_flatten.mp hx4 with ⟨l, hl, hxl⟩
    rcases List.mem_map.mp hl with ⟨ib, _, rfl⟩
    exact mem_interblock_compress_good ib dtm x hxl

/-- C6: AduChannel::compress never selects the eof context and never encodes
the end-of-stream None symbol: every symbol it writes is a real symbol under
the u8_general, d, or dt context, so the EOF sentinel written by add_eof can
only come from a separate caller. -/
theorem c6_channel_compress_no_eof (ch : AduChannel) (dtm : Int) :
    ∀ x ∈ ch.compress dtm,
      (x.1 = Ctx.u8General ∨ x.1 = Ctx.dCtx ∨ x.1 = Ctx.dtCtx) ∧
      x.1 ≠ Ctx.eofCtx ∧ x.2 ≠ none := by
  intro x hx
  have hgood : (x.1 = Ctx.u8General ∨ x.1 = Ctx.dCtx ∨ x.1 = Ctx.dtCtx) ∧
      ∃ v, x.2 = some v := by
    rcases List.mem_append.mp hx with hx1 | hx1
    · rcases List.mem_map.mp hx1 with ⟨v, _, rfl⟩
      exact ⟨Or.inl rfl, _, rfl⟩
    · rcases List.mem_flatten.mp hx1 with ⟨l, hl, hxl⟩
      rcases List.mem_map.mp hl with ⟨c, _, rfl⟩
      exact mem_cube_compress_good c dtm x hxl
  rcases hgood with ⟨hctx, v, hv⟩
  refine ⟨hctx, ?_, ?_⟩
  · rcases hctx with h | h | h <;> simp [h]
  · rw [hv]; simp

/-- C6 witness: the first header symbol of the empty channel stream. -/
theorem c6_channel_compress_no_eof_witness :
    ((Ctx.u8General, some (0 : Int)) : Sym) ∈ emptyChannel.compress 100 ∧
    ((((Ctx.u8General, some (0 : Int)) : Sym).1 = Ctx.u8General ∨
      ((Ctx.u8General, some (0 : Int)) : Sym).1 = Ctx.dCtx ∨
      ((Ctx.u8General, some (0 : Int)) : Sym).1 = Ctx.dtCtx) ∧
     ((Ctx.u8General, some (0 : Int)) : Sym).1 ≠ Ctx.eofCtx ∧
     ((Ctx.u8General, some (0 : Int)) : Sym).2 ≠ none) :=
  ⟨by decide, c6_channel_compress_no_eof emptyChannel 100
    (Ctx.u8General, some (0 : Int)) (by decide)⟩

/-- Reassembling the two big-endian bytes of a u16 value. -/
theorem u16_bytes_roundtrip (n : Nat) (h : n < 65536) :
    (((n / 256 % 256 : Nat) : Int).toNat % 256) * 256 +
      ((n % 256 : Nat) : Int).toNat % 256 = n := by
  simp only [Int.toNat_natCast]
  omega

/-- Reassembling the four big-endian bytes of a u32 value. -/
theorem u32_bytes_roundtrip (n : Nat) (h : n < 2 ^ 32) :
    (((n / 2 ^ 24 % 256 : Nat) : Int).toNat % 256) * 2 ^ 24 +
      (((n / 2 ^ 16 % 256 : Nat) : Int).toNat % 256) * 2 ^ 16 +
      (((n / 2 ^ 8 % 256 : Nat) : Int).toNat % 256) * 2 ^ 8 +
      ((n % 256 : Nat) : Int).toNat % 256 = n := by
  simp only [Int.toNat_natCast]
  omega

/-- Decompressing a compressed intra block restores it exactly. -/
theorem intra_decompress_compress (b : AduIntraBlock) (dtm : Int)
    (hwf : b.wf) (rest : List Sym) :
    AduIntraBlock.decompress dtm (b.compress dtm ++ rest) = some (b, rest) := by
  obtain ⟨hhd, hht, hs, hd, ht, hz⟩ := hwf
  have hstream : b.compress dtm ++ rest =
      (Ctx.u8General, some (b.head_event_d : Int)) ::
      (Ctx.u8General, some ((b.head_event_t / 2 ^ 24 % 256 : Nat) : Int)) ::
      (Ctx.u8General, some ((b.head_event_t / 2 ^ 16 % 256 : Nat) : Int)) ::
      (Ctx.u8General, some ((b.head_event_t / 2 ^ 8 % 256 : Nat) : Int)) ::
      (Ctx.u8General, some ((b.head_event_t % 256 : Nat) : Int)) ::
      (Ctx.u8General, some (b.shift_loss_param : Int)) ::
        (compress_d_residuals b.d_residuals ++
          (compress_dt_residuals b.dt_residuals b.d_residuals dtm ++ rest)) := by
    simp [AduIntraBlock.compress, u32BeBytes, List.append_assoc]
  have h1 : decompress_d_residuals b.d_residuals.length
      (compress_d_residuals b.d_residuals ++
        (compress_dt_residuals b.dt_residuals b.d_residuals dtm ++ rest)) =
      some (b.d_residuals,
        compress_dt_residuals b.dt_residuals b.d_residuals dtm ++ rest) :=
    decompress_d_of_compress _ _
  have h2 : decompress_dt_residuals
      (List.replicate b.d_residuals.length 0) b.d_residuals dtm
      (compress_dt_residuals b.dt_residuals b.d_residuals dtm ++ rest) =
      some (mergeResiduals (List.replicate b.d_residuals.length 0)
        b.dt_residuals b.d_residuals, rest) :=
    decompress_dt_of_compress b.d_residuals b.dt_residuals _ dtm rest
      (by omega) (by simp)
  have h3 : mergeResiduals (List.replicate b.d_residuals.length 0)
      b.dt_residuals b.d_residuals = b.dt_residuals := by
    rw [← hd] at ht
    exact mergeResiduals_self b.d_residuals b.dt_residuals ht hz
  rw [hstream]
  simp only [AduIntraBlock.decompress, ← hd, h1, h2, h3]
  rw [u32_bytes_roundtrip b.head_event_t hht]
  simp only [Int.toNat_natCast, Nat.mod_eq_of_lt hhd, Nat.mod_eq_of_lt hs]

/-- Decompressing a counted run of compressed inter blocks restores the
list. -/
theorem decompressInterBlocks_of_compress (l : List AduInterBlock)
    (dtm : Int) (hwf : ∀ ib ∈ l, ib.wf) (rest : List Sym) :
    decompressInterBlocks dtm l.length
      ((l.map (fun ib => ib.compress dtm)).flatten ++ rest) = some (l, rest) := by
  induction l with
  | nil => rfl
  | cons ib l ih =>
      have hib := hwf ib (List.mem_cons_self _ _)
      have hl : ∀ x ∈ l, x.wf := fun x hx => hwf x (List.mem_cons_of_mem _ hx)
      simp only [List.map_cons, List.flatten_cons, List.length_cons,
        List.append_assoc, decompressInterBlocks,
        interblock_decompress_compress ib dtm hib, ih hl]

/-- Decompressing a compressed cube restores it exactly. -/
theorem cube_decompress_compress (c : AduCube) (dtm : Int) (hwf : c.wf)
    (rest : List Sym) :
    AduCube.decompress dtm (c.compress dtm ++ rest) = some (c, rest) := by
  obtain ⟨hy, hx, hintra, hcount, hlt, hibs⟩ := hwf
  have hstream : c.compress dtm ++ rest =
      (Ctx.u8General, some (c.idx_y : Int)) ::
      (Ctx.u8General, some (c.idx_x : Int)) ::
        (c.intra_block.compress dtm ++
          ((Ctx.u8General, some ((c.num_inter_blocks / 256 % 256 : Nat) : Int)) ::
           (Ctx.u8General, some ((c.num_inter_blocks % 256 : Nat) : Int)) ::
            ((c.inter_blocks.map (fun ib => ib.compress dtm)).flatten ++ rest))) := by
    simp [AduCube.compress, u16BeBytes, List.append_assoc]
  rw [hstream]
  simp only [AduCube.decompress,
    intra_decompress_compress c.intra_block dtm hintra]
  rw [u16_bytes_roundtrip c.num_inter_blocks hlt, hcount,
    decompressInterBlocks_of_compress c.inter_blocks dtm hibs rest]
  simp [Nat.mod_eq_of_lt hy, Nat.mod_eq_of_lt hx, ← hcount,
    u16_bytes_roundtrip c.num_inter_blocks hlt]

/-- Decompressing a counted run of compressed cubes restores the list. -/
theorem decompressCubes_of_compress (l : List AduCube) (dtm : Int)
    (hwf : ∀ c ∈ l, c.wf) (rest : List Sym) :
    decompressCubes dtm l.length
      ((l.map (fun c => c.compress dtm)).flatten ++ rest) = some (l, rest) := by
  induction l with
  | nil => rfl
  | cons c l ih =>
      have hc := hwf c (List.mem_cons_self _ _)
      have hl : ∀ x ∈ l, x.wf := fun x hx => hwf x (List.mem_cons_of_mem _ hx)
      simp only [List.map_cons, List.flatten_cons, List.length_cons,
        List.append_assoc, decompressCubes,
        cube_decompress_compress c dtm hc, ih hl]

/-- A successful counted cube read returns exactly as many cubes as the
counter requested. -/
theorem decompressCubes_length (dtm : Int) (n : Nat) : ∀ (s : List Sym)
    (cubes : List AduCube) (rest : List Sym),
    decompressCubes dtm n s = some (cubes, rest) → cubes.length = n := by
  induction n with
  | zero =>
      intro s cubes rest h
      simp only [decompressCubes] at h
      cases h
      rfl
  | succ n ih =>
      intro s cubes rest h
      simp only [decompressCubes] at h
      cases hdec : AduCube.decompress dtm s with
      | none =>
          simp only [hdec] at h
          exact Option.noConfusion h
      | some p =>
          obtain ⟨c, s1⟩ := p
          simp only [hdec] at h
          cases hrec : decompressCubes dtm n s1 with
          | none =>
              simp only [hrec] at h
              exact Option.noConfusion h
          | some q =>
              obtain ⟨cs, s2⟩ := q
              simp only [hrec] at h
              cases h
              simpa using ih s1 cs rest hrec

/-- C7: AduChannel::compress writes num_cubes as exactly two big-endian
bytes under the u8_general context before any cube data; every channel
returned by AduChannel::decompress has num_cubes equal to the length of its
cubes list; and decompressing a compressed wellformed channel restores it,
so after the round trip the counter equals the cube count. -/
theorem c7_num_cubes_roundtrip (ch : AduChannel) (dtm : Int)
    (hwf : ch.wf) :
    ch.compress dtm =
      (Ctx.u8General, some ((ch.num_cubes / 256 % 256 : Nat) : Int)) ::
      (Ctx.u8General, some ((ch.num_cubes % 256 : Nat) : Int)) ::
        (ch.cubes.map (fun c => c.compress dtm)).flatten ∧
    (∀ s ch1 rest, AduChannel.decompress dtm s = some (ch1, rest) →
      ch1.num_cubes = ch1.cubes.length) ∧
    AduChannel.decompress dtm (ch.compress dtm) = some (ch, []) := by
  obtain ⟨hcount, hlt, hcubes⟩ := hwf
  refine ⟨by simp [AduChannel.compress, u16BeBytes], ?_, ?_⟩
  · intro s ch1 rest h
    cases s with
    | nil => exact Option.noConfusion h
    | cons a s0 =>
        obtain ⟨ca, va⟩ := a
        cases ca <;> try exact Option.noConfusion h
        cases va with
        | none => exact Option.noConfusion h
        | some b0 =>
            cases s0 with
            | nil => exact Option.noConfusion h
            | cons a1 s1 =>
                obtain ⟨ca1, va1⟩ := a1
                cases ca1 <;> try exact Option.noConfusion h
                cases va1 with
                | none => exact Option.noConfusion h
                | some b1 =>
                    simp only [AduChannel.decompress] at h
                    cases hdec : decompressCubes dtm
                        ((b0.toNat % 256) * 256 + b1.toNat % 256) s1 with
                    | none =>
                        simp only [hdec] at h
                        exact Option.noConfusion h
                    | some p =>
                        obtain ⟨cubes, s2⟩ := p
                        simp only [hdec] at h
                        cases h
                        exact (decompressCubes_length dtm _ s1 cubes rest hdec).symm
  · have hstream : ch.compress dtm =
        (Ctx.u8General, some ((ch.num_cubes / 256 % 256 : Nat) : Int)) ::
        (Ctx.u8General, some ((ch.num_cubes % 256 : Nat) : Int)) ::
          ((ch.cubes.map (fun c => c.compress dtm)).flatten ++ []) := by
      simp [AduChannel.compress, u16BeBytes]
    rw [hstream]
    simp only [AduChannel.decompress]
    rw [u16_bytes_roundtrip ch.num_cubes hlt, hcount,
      decompressCubes_of_compress ch.cubes dtm hcubes []]
    simp [← hcount, u16_bytes_roundtrip ch.num_cubes hlt]

/-- C7 witness: the empty channel. -/
theorem c7_num_cubes_roundtrip_witness :
    emptyChannel.wf ∧
    (emptyChannel.compress 100 =
      (Ctx.u8General, some ((emptyChannel.num_cubes / 256 % 256 : Nat) : Int)) ::
      (Ctx.u8General, some ((emptyChannel.num_cubes % 256 : Nat) : Int)) ::
        (emptyChannel.cubes.map (fun c => c.compress 100)).flatten ∧
     (∀ s ch1 rest, AduChannel.decompress 100 s = some (ch1, rest) →
       ch1.num_cubes = ch1.cubes.length) ∧
     AduChannel.decompress 100 (emptyChannel.compress 100) =
       some (emptyChannel, [])) :=
  ⟨by decide, c7_num_cubes_roundtrip emptyChannel 100 (by decide)⟩

end Adder
